import Mathlib

/-!
Verification of the adapter/cache core of claude-sessions-tui.

Modelling conventions:
* A Go string is modelled as the list of its bytes; each byte is carried by a
  `Char` (all literals appearing in the sources are ASCII, so `String.toList`
  of a Lean literal is exactly the byte sequence of the Go literal).
* `time.Time` values are modelled by their unix value as an `Int` (seconds);
  sub-second mtime resolution is elided, and Go's zero `time.Time` (used by
  `BuildIncremental` when no prior cache exists) is modelled by `Option.none`.
* Filesystem interaction (`os.Stat`, `filepath.Walk`) is modelled by explicit
  data: functions from ids/paths to optional results, and walk-ordered file
  lists.
* Float64 arithmetic (`calculateCost`) is modelled by exact rationals.
-/

/-- A Go string, as its byte sequence (bytes carried by `Char`). -/
abbrev GoStr := List Char

/-- Decimal digit to character, as used when formatting integers. -/
def digitChar (d : Nat) : Char :=
  match d with
  | 0 => '0' | 1 => '1' | 2 => '2' | 3 => '3' | 4 => '4'
  | 5 => '5' | 6 => '6' | 7 => '7' | 8 => '8' | _ => '9'

/-- Character to decimal digit value (used by the `%d` scan model). -/
def digitVal (c : Char) : Nat := c.toNat - 48

/-- Digits of `n`, least significant first. -/
def natToRevDigits : Nat → GoStr
  | 0 => []
  | n + 1 => digitChar ((n + 1) % 10) :: natToRevDigits ((n + 1) / 10)
decreasing_by exact Nat.div_lt_self (Nat.succ_pos n) (by omega)

/-- Decimal rendering of a natural number (Go `fmt` style, no padding). -/
def natToStr (n : Nat) : GoStr :=
  if n = 0 then ['0'] else (natToRevDigits n).reverse

/-- Decimal rendering of an integer, as `fmt.Sprintf("%d", _)` renders int64. -/
def intToStr (i : Int) : GoStr :=
  if i < 0 then '-' :: natToStr i.natAbs else natToStr i.natAbs

/-- Value of a most-significant-first digit string. -/
def digitsToNat (ds : GoStr) : Nat :=
  ds.foldl (fun a c => a * 10 + digitVal c) 0

/-- ASCII whitespace, the byte-level case of Go `unicode.IsSpace`
(`'\t'`, `'\n'`, `'\v'`, `'\f'`, `'\r'`, `' '`). -/
def isSpaceB (c : Char) : Bool :=
  c = ' ' || c = '\t' || c = '\n' || c = '\x0b' || c = '\x0c' || c = '\r'

/-- Leading decimal run of a string, or `none` when it does not start with a
digit (a failed `%d` conversion). -/
def leadingDigits (s : GoStr) : Option Nat :=
  let ds := s.takeWhile (fun c => c.isDigit)
  if ds = [] then none else some (digitsToNat ds)

/-- Model of `fmt.Sscanf(s, "%d", &x)` with `x` zero-initialised: skip leading
whitespace, read an optional sign and a digit run; on a failed conversion the
variable keeps its zero value. -/
def sscanfCore : GoStr → Int
  | [] => 0
  | c :: rest =>
    if c = '-' then
      match leadingDigits rest with
      | some n => -(n : Int)
      | none => 0
    else if c = '+' then
      match leadingDigits rest with
      | some n => (n : Int)
      | none => 0
    else
      match leadingDigits (c :: rest) with
      | some n => (n : Int)
      | none => 0

/-- Model of `fmt.Sscanf(s, "%d", &x)` (continued): the whitespace skip. -/
def sscanfInt (s : GoStr) : Int :=
  sscanfCore (s.dropWhile isSpaceB)

/-- Two-digit zero-padded rendering (Go layout fragments `15`, `04`, `01`,
`02`). -/
def pad2 (n : Nat) : GoStr :=
  if n < 10 then '0' :: natToStr n else natToStr n

/-- Four-digit zero-padded rendering (Go layout fragment `2006`), with a
leading minus for negative years. -/
def pad4 (y : Int) : GoStr :=
  if y < 0 then '-' :: pad4Nat y.natAbs else pad4Nat y.natAbs
where
  pad4Nat (n : Nat) : GoStr :=
    if n < 10 then '0' :: '0' :: '0' :: natToStr n
    else if n < 100 then '0' :: '0' :: natToStr n
    else if n < 1000 then '0' :: natToStr n
    else natToStr n

/-- Civil date (year, month, day) of a unix timestamp, proleptic Gregorian,
UTC. (The Go code formats in local time; the claims never inspect the
formatted date/clock columns, only that they are single tab-free columns.) -/
def civilOfUnix (i : Int) : Int × Nat × Nat :=
  let days : Int := (i - i.emod 86400) / 86400
  let z : Int := days + 719468
  let era : Int := (z - z.emod 146097) / 146097
  let doe : Nat := (z - era * 146097).toNat
  let yoe : Nat := (doe - doe / 1460 + doe / 36524 - doe / 146096) / 365
  let doy : Nat := doe - (365 * yoe + yoe / 4 - yoe / 100)
  let mp : Nat := (5 * doy + 2) / 153
  let d : Nat := doy - (153 * mp + 2) / 5 + 1
  let m : Nat := if mp < 10 then mp + 3 else mp - 9
  let y : Int := (yoe : Int) + era * 400 + (if m ≤ 2 then 1 else 0)
  (y, m, d)

/-- Model of `t.Format("15:04")` for a unix timestamp (UTC). -/
def formatHHMM (i : Int) : GoStr :=
  let secOfDay : Nat := (i.emod 86400).toNat
  pad2 (secOfDay / 3600) ++ ':' :: pad2 (secOfDay % 3600 / 60)

/-- Model of `t.Format("2006-01-02")` for a unix timestamp (UTC). -/
def formatYMD (i : Int) : GoStr :=
  let (y, m, d) := civilOfUnix i
  pad4 y ++ '-' :: pad2 m ++ '-' :: pad2 d

/-- Unix value of Go's `time.Date(0, time.January, 1, ...)`, the date produced
by `time.Parse` for layouts that carry no date. -/
def yearZeroUnix : Int := -62167219200

/-- Unix value of Go's zero `time.Time` (January 1, year 1). -/
def zeroTimeUnix : Int := -62135596800

/-- Clock parse for layout `"15:04"`: one- or two-digit hour, two-digit
minute, with Go's range checks. -/
def parseClock (s : GoStr) : Option (Nat × Nat) :=
  match s with
  | [h1, h2, ':', m1, m2] =>
    if h1.isDigit && h2.isDigit && m1.isDigit && m2.isDigit then
      let h := digitVal h1 * 10 + digitVal h2
      let m := digitVal m1 * 10 + digitVal m2
      if h ≤ 23 && m ≤ 59 then some (h, m) else none
    else none
  | [h1, ':', m1, m2] =>
    if h1.isDigit && m1.isDigit && m2.isDigit then
      let h := digitVal h1
      let m := digitVal m1 * 10 + digitVal m2
      if h ≤ 23 && m ≤ 59 then some (h, m) else none
    else none
  | _ => none

/-- Model of `time.Parse("15:04", s)` followed by `.Unix()`, with the error
ignored (`date, _ = time.Parse(...)` leaves the zero time on error). -/
def clockFallback (s : GoStr) : Int :=
  match parseClock s with
  | some (h, m) => yearZeroUnix + (h * 3600 + m * 60 : Nat)
  | none => zeroTimeUnix

/-- Cache entry (`cache.Entry`): session id, date, project, summary and
parent session id. -/
structure Entry where
  sessionID : GoStr
  date : Int
  project : GoStr
  summary : GoStr
  parentSID : GoStr
deriving DecidableEq

/-- Model of `escapeTSV`: each tab, newline and carriage return is replaced
by a single space (three successive single-character `strings.ReplaceAll`
calls, equivalent to one character map). -/
def escapeTSV (s : GoStr) : GoStr :=
  s.map (fun c => if c = '\t' then ' ' else if c = '\n' then ' ' else if c = '\r' then ' ' else c)

/-- Model of `unescapeTSV` (the source performs no unescaping on read). -/
def unescapeTSV (s : GoStr) : GoStr := s

/-- One serialized cache row, as produced by `cache.Write`: seven
tab-separated columns terminated by a newline. -/
def entryLine (e : Entry) : GoStr :=
  e.sessionID ++ '\t' :: formatHHMM e.date
    ++ '\t' :: escapeTSV e.project
    ++ '\t' :: escapeTSV e.summary
    ++ '\t' :: intToStr e.date
    ++ '\t' :: (if e.parentSID = [] then ['-'] else e.parentSID)
    ++ '\t' :: formatYMD e.date ++ ['\n']

/-- File content produced by `cache.Write` (the function truncates the file
and writes every row; directory creation and I/O errors are outside the
model). -/
def writeContent (es : List Entry) : GoStr :=
  (es.map entryLine).flatten

/-- Drop one trailing carriage return, as `bufio.ScanLines` does. -/
def stripCR (s : GoStr) : GoStr :=
  if s.getLast? = some '\r' then s.dropLast else s

/-- Model of reading a file line-by-line with `bufio.Scanner` /
`bufio.ScanLines`: split on newlines, no empty token after a trailing
newline, one trailing `'\r'` stripped per line. -/
def scanLines (s : GoStr) : List GoStr :=
  let ls := s.splitOn '\n'
  let ls := if ls.getLast? = some [] then ls.dropLast else ls
  ls.map stripCR

/-- Model of one iteration of the `cache.Read` loop: split the line on tabs,
skip rows with fewer than four columns, otherwise decode the fields. -/
def parseRow (line : GoStr) : Option Entry :=
  let parts := line.splitOn '\t'
  if parts.length < 4 then none
  else some
    { sessionID := parts.getD 0 []
      date := if 5 ≤ parts.length then sscanfInt (parts.getD 4 []) else clockFallback (parts.getD 1 [])
      project := unescapeTSV (parts.getD 2 [])
      summary := unescapeTSV (parts.getD 3 [])
      parentSID := if 6 ≤ parts.length && parts.getD 5 [] ≠ ['-'] then parts.getD 5 [] else [] }

/-- Model of `cache.Read` on file content (the open error path returns no
entries and is outside the model). -/
def readEntries (content : GoStr) : List Entry :=
  (scanLines content).filterMap parseRow

/-- Session metadata as produced by `ExtractMeta` (`adapters.SessionMeta`). -/
structure Meta where
  id : GoStr
  date : Int
  project : GoStr
  summary : GoStr
  parentSID : GoStr
deriving DecidableEq

/-- Error outcomes of `ExtractMeta`: the two sentinels (`ErrWarmupSession`,
`ErrNoMessages`), an unresolved id (`os.ErrNotExist`) and other I/O errors.
`BuildIncremental` treats every error alike (skip the session). -/
inductive MetaErr where
  | warmup
  | noMessages
  | notFound
  | ioError
deriving DecidableEq

/-- Abstract adapter as consumed by `cache.BuildIncremental`: the id list
returned by `ListSessions` (walk errors are swallowed, so the call is
infallible), `GetSessionFile` with `""` modelled as `none`, `os.Stat`'s
mtime on a path, and `ExtractMeta`. -/
structure AdapterModel where
  sessions : List GoStr
  pathOf : GoStr → Option GoStr
  mtimeOf : GoStr → Option Int
  extractMeta : GoStr → Except MetaErr Meta

/-- The entry `BuildIncremental` constructs from fresh metadata
(`Entry{SessionID: meta.ID, Date: meta.Date, ...}`). -/
def mkEntry (m : Meta) : Entry :=
  { sessionID := m.id, date := m.date, project := m.project
    summary := m.summary, parentSID := m.parentSID }

/-- Lookup in the `existingMap` Go map built by inserting entries in list
order: the last entry with a given id wins, hence the find on the reversed
list. -/
def lookupGo (es : List Entry) (id : GoStr) : Option Entry :=
  es.reverse.find? (fun e => e.sessionID == id)

/-- Fresh extraction branch of the `BuildIncremental` loop: an `ExtractMeta`
error of any kind skips the session. -/
def freshEntry (A : AdapterModel) (id : GoStr) : Option Entry :=
  (A.extractMeta id).toOption.map mkEntry

/-- One iteration of the `BuildIncremental` loop for a session id.
`cacheMtime = none` models the zero `time.Time` (no prior cache, or a failed
stat of the cache path). -/
def buildStep (A : AdapterModel) (cacheMtime : Option Int) (existing : List Entry)
    (id : GoStr) : Option Entry :=
  match A.pathOf id with
  | none => none
  | some p =>
    match A.mtimeOf p with
    | none => none
    | some m =>
      match cacheMtime with
      | some c =>
        if m < c then
          match lookupGo existing id with
          | some e => some e
          | none => freshEntry A id
        else freshEntry A id
      | none => freshEntry A id

/-- Model of `cache.BuildIncremental`: the per-session loop over the
adapter's id list. -/
def buildIncremental (A : AdapterModel) (cacheMtime : Option Int)
    (existing : List Entry) : List Entry :=
  A.sessions.filterMap (buildStep A cacheMtime existing)

/-- Content block of a log-format message, as far as the adapter inspects it:
a `text` block with its text, a `tool_use` block with its tool name, or any
other (ignored) shape. -/
inductive Block where
  | text (s : GoStr)
  | toolUse (name : GoStr)
  | other
deriving DecidableEq

/-- Message content (`interface{}` in the source): a plain string, an array
of content blocks, or any other JSON shape. -/
inductive Content where
  | str (s : GoStr)
  | arr (bs : List Block)
  | nullv
deriving DecidableEq

/-- Token usage of an assistant record (`usage` in the source). -/
structure Usage where
  inputTokens : Int
  outputTokens : Int
  cacheReadInputTokens : Int
  cacheCreationInputTokens : Int
deriving DecidableEq

/-- Message payload of a parsed record (`message` in the source); only the
fields the modelled operations read are carried. -/
structure MessageRec where
  role : GoStr
  content : Content
  model : GoStr
  usage : Option Usage
deriving DecidableEq

/-- One parsed line of a `.jsonl` session log (`record` in the source); only
the fields the modelled operations read are carried. -/
structure Record where
  type : GoStr
  summary : GoStr
  message : MessageRec
  isMeta : Bool
  parentSession : GoStr
  sessionID : GoStr
  agentID : GoStr
deriving DecidableEq

/-- Model of `extractTextContent`: a plain string is returned as is; an array
contributes the text of its `text` blocks joined by single spaces; anything
else yields the empty string. -/
def extractTextContent (c : Content) : GoStr :=
  match c with
  | .str s => s
  | .arr bs =>
    let texts := bs.filterMap (fun b => match b with | .text s => some s | _ => none)
    if texts = [] then [] else List.intercalate [' '] texts
  | .nullv => []

/-- Model of `strings.TrimSpace` on the ASCII fast path (every byte of the
warmup marker comparison is ASCII). -/
def trimSpaceGo (s : GoStr) : GoStr :=
  ((s.dropWhile isSpaceB).reverse.dropWhile isSpaceB).reverse

/-- Model of `truncate`: byte-length cut with a `"..."` suffix. -/
def truncate (s : GoStr) (maxLen : Nat) : GoStr :=
  if s.length ≤ maxLen then s else s.take (maxLen - 3) ++ ['.', '.', '.']

/-- True of the records the warmup check and `extractFirstUserMessage` treat
as user messages. -/
def isUserUser (r : Record) : Bool :=
  r.type == "user".toList && r.message.role == "user".toList

/-- Model of `extractFirstUserMessage`: first user message with non-empty
text, truncated to 100 bytes; falling back to the first assistant message
with non-empty text; else empty. -/
def extractFirstUserMessage (records : List Record) : GoStr :=
  match records.find? (fun r => isUserUser r && extractTextContent r.message.content != []) with
  | some r => truncate (extractTextContent r.message.content) 100
  | none =>
    match records.find? (fun r =>
        r.type == "assistant".toList && r.message.role == "assistant".toList
          && extractTextContent r.message.content != []) with
    | some r => truncate (extractTextContent r.message.content) 100
    | none => []

/-- The literal warmup marker. -/
def warmupMarker : GoStr := "Warmup".toList

/-- Model of the claude `ExtractMeta` logic after the file has been resolved,
statted and parsed: agent detection, the warmup check on the first user
message, summary selection with first-user-message fallback, branch parent
detection, and the metadata-only check. -/
def extractMetaCore (id : GoStr) (mtime : Int) (project : GoStr)
    (records : List Record) : Except MetaErr Meta :=
  let agentRec := records.find? (fun r => r.agentID != [])
  let isAgent := agentRec.isSome
  let agentParent :=
    match agentRec with
    | some r => if r.sessionID ≠ [] then r.sessionID else []
    | none => []
  match records.find? isUserUser with
  | some r =>
    if trimSpaceGo (extractTextContent r.message.content) = warmupMarker then
      .error .warmup
    else extractMetaRest id mtime project records isAgent agentParent
  | none => extractMetaRest id mtime project records isAgent agentParent
where
  extractMetaRest (id : GoStr) (mtime : Int) (project : GoStr)
      (records : List Record) (isAgent : Bool) (agentParent : GoStr) :
      Except MetaErr Meta :=
    let summary0 :=
      match records.find? (fun r => r.type == "summary".toList && r.summary != []) with
      | some r => r.summary
      | none => []
    let parentSID :=
      if isAgent then agentParent
      else
        match (records.filter (fun r =>
            r.type == "branch".toList && r.parentSession != [])).getLast? with
        | some r => r.parentSession
        | none => []
    let hasMessages := records.any (fun r =>
      r.type == "user".toList || r.type == "assistant".toList)
    let summary := if summary0 = [] then extractFirstUserMessage records else summary0
    if !hasMessages then .error .noMessages
    else .ok { id := id, date := mtime, project := project
               summary := summary, parentSID := parentSID }

/-- Model of `GetFirstMessage` after the file has been resolved and parsed:
first non-meta user message with non-empty text, truncated to 200 bytes. -/
def getFirstMessageCore (records : List Record) : GoStr :=
  match records.find? (fun r =>
      r.type == "user".toList && !r.isMeta && r.message.role == "user".toList
        && extractTextContent r.message.content != []) with
  | some r => truncate (extractTextContent r.message.content) 200
  | none => []

/-- Session statistics (`adapters.Stats`); cost in exact rationals. -/
structure StatsM where
  userMessages : Nat
  assistantMessages : Nat
  inputTokens : Int
  outputTokens : Int
  cacheRead : Int
  cacheWrite : Int
  cost : ℚ
  toolCalls : List (GoStr × Nat)
deriving DecidableEq

/-- Increment a tool's count in the tool-call map (modelled as an association
list). -/
def bumpTool (m : List (GoStr × Nat)) (name : GoStr) : List (GoStr × Nat) :=
  match m with
  | [] => [(name, 1)]
  | (k, v) :: rest => if k = name then (k, v + 1) :: rest else (k, v) :: bumpTool rest name

/-- Tool-use names of an assistant record's content array (empty names are
not counted). -/
def toolNamesOf (c : Content) : List GoStr :=
  match c with
  | .arr bs => bs.filterMap (fun b => match b with
      | .toolUse n => if n = [] then none else some n
      | _ => none)
  | _ => []

/-- Model of `calculateCost`: the fixed Sonnet 3.5 per-million-token rates
(float64 arithmetic modelled by exact rationals). -/
def calculateCost (input output cacheRead cacheWrite : Int) : ℚ :=
  (input : ℚ) * 3 / 1000000 + (output : ℚ) * 15 / 1000000
    + (cacheRead : ℚ) * (3 / 10) / 1000000 + (cacheWrite : ℚ) * (15 / 4) / 1000000

/-- Token/message accumulation loop of `GetStats`. -/
def statsLoop (records : List Record) : StatsM :=
  records.foldl
    (fun s r =>
      if r.type == "user".toList then
        if !r.isMeta then { s with userMessages := s.userMessages + 1 } else s
      else if r.type == "assistant".toList then
        let s := { s with assistantMessages := s.assistantMessages + 1 }
        let s :=
          match r.message.usage with
          | some u =>
            { s with inputTokens := s.inputTokens + u.inputTokens
                     outputTokens := s.outputTokens + u.outputTokens
                     cacheRead := s.cacheRead + u.cacheReadInputTokens
                     cacheWrite := s.cacheWrite + u.cacheCreationInputTokens }
          | none => s
        { s with toolCalls := (toolNamesOf r.message.content).foldl bumpTool s.toolCalls }
      else s)
    { userMessages := 0, assistantMessages := 0, inputTokens := 0, outputTokens := 0
      cacheRead := 0, cacheWrite := 0, cost := 0, toolCalls := [] }

/-- Model of `GetStats` after the file has been resolved and parsed: the
accumulation loop followed by the cost computation. -/
def getStatsCore (records : List Record) : StatsM :=
  let s := statsLoop records
  { s with cost := calculateCost s.inputTokens s.outputTokens s.cacheRead s.cacheWrite }

/-- Per-model price rows as the spec describes the pricing table. -/
structure Rates where
  input : ℚ
  output : ℚ
  cacheRead : ℚ
  cacheWrite : ℚ

/-- The price table the code ships: every model is priced at the Sonnet 3.5
rates (the source consults no other row; `calculateCost` takes no model
argument). -/
def priceTable : GoStr → Rates :=
  fun _ => { input := 3, output := 15, cacheRead := 3 / 10, cacheWrite := 15 / 4 }

/-- Models used by a session's assistant records (set semantics of
`GetModels`). -/
def modelsOf (records : List Record) : List GoStr :=
  (records.filter (fun r => r.type == "assistant".toList && r.message.model != [])).map
    (fun r => r.message.model)

/-- A file met by `filepath.Walk` under the adapter's data directory: the
path components of its containing directory (in order, from the walk root),
its base name, and its mtime. The list order of a `List FileEnt` is the walk
(lexical) order. -/
structure FileEnt where
  dirs : List GoStr
  base : GoStr
  mtime : Int
deriving DecidableEq

/-- Base name of a file's containing directory (`filepath.Base(filepath.Dir path)`). -/
def dirLast (f : FileEnt) : GoStr :=
  (f.dirs.getLast?).getD []

/-- Base name of the grandparent directory. -/
def dirPenult (f : FileEnt) : GoStr :=
  (f.dirs.dropLast.getLast?).getD []

/-- The `.jsonl` suffix. -/
def jsonlSuffix : GoStr := ".jsonl".toList

/-- Session id assigned to a walked file by the claude `ListSessions` walk
function: `.jsonl` files only, with agent sessions under a `subagents`
directory getting the composite `parentID/rawID` id. -/
def sessionIdOf (f : FileEnt) : Option GoStr :=
  if jsonlSuffix.isSuffixOf f.base then
    let rawID := f.base.take (f.base.length - 6)
    some (if dirLast f = "subagents".toList then dirPenult f ++ '/' :: rawID else rawID)
  else none

/-- The id/mtime pairs collected by the claude `ListSessions` walk, sorted
newest first (`sort.Slice` with an `After` comparator; the sort is unstable
in Go, so any mtime-descending order is a faithful outcome). `none` models a
non-existent data directory: the walk function swallows the walk error, so
nothing is collected and no error is returned. -/
def listPairs (fs : Option (List FileEnt)) : List (GoStr × Int) :=
  match fs with
  | none => []
  | some files =>
    (files.filterMap (fun f => (sessionIdOf f).map (fun id => (id, f.mtime)))).mergeSort
      (fun a b => decide (b.2 ≤ a.2))

/-- Model of the claude `ListSessions`: the sorted ids. -/
def listSessionsM (fs : Option (List FileEnt)) : List GoStr :=
  (listPairs fs).map Prod.fst

/-- Model of `strings.SplitN(id, "/", 2)` for an id containing a slash:
the parts before and after the first slash. -/
def splitN2 : GoStr → GoStr × GoStr
  | [] => ([], [])
  | c :: cs =>
    if c = '/' then ([], cs)
    else
      let p := splitN2 cs
      (c :: p.1, p.2)

/-- Search pattern of `GetSessionFile`: the child part of a composite id, or
the id itself, with the `.jsonl` suffix appended. -/
def searchPatternOf (id : GoStr) : GoStr :=
  if '/' ∈ id then (splitN2 id).2 ++ jsonlSuffix else id ++ jsonlSuffix

/-- Acceptance test of the `GetSessionFile` walk on one file: the base name
must equal the search pattern, and for a composite id a file sitting in a
`subagents` directory is rejected when that directory's parent is not the
requested parent id. -/
def acceptFile (id : GoStr) (f : FileEnt) : Bool :=
  f.base == searchPatternOf id
    && !(decide ('/' ∈ id) && dirLast f == "subagents".toList
          && dirPenult f != (splitN2 id).1)

/-- Model of the claude `GetSessionFile` search (cold id-to-path cache): the
first acceptable file in walk order, `none` for the empty-string not-found
result. The memoisation cache, which `ListSessions` and previous lookups
populate with exactly these results, is elided. -/
def getSessionFileM (files : List FileEnt) (id : GoStr) : Option FileEnt :=
  files.find? (acceptFile id)

/-- One line of the grouped session list produced by `formatForDisplay`,
abstracted to its kind and source entry (the claims about the grouped view
concern which entries are rendered, not the rendered bytes). -/
inductive DispLine where
  | header (d : GoStr)
  | rootLine (e : Entry)
  | branchLine (e : Entry)
deriving DecidableEq

/-- Root test of `formatForDisplay`: entries with an empty or `-` parent id. -/
def isRootEntry (e : Entry) : Bool :=
  e.parentSID == [] || e.parentSID == ['-']

/-- Main loop of `formatForDisplay` over the root entries, threading the
current date-header state; returns the emitted lines and the final current
date. Each root emits a pending date header when its date changes, its own
line, and the lines of the branches whose parent it is. -/
def rootLoop (branches : List Entry) : List Entry → GoStr → List DispLine × GoStr
  | [], cur => ([], cur)
  | r :: rs, cur =>
    let d := formatYMD r.date
    let hdr : List DispLine := if d ≠ cur ∧ cur ≠ [] then [.header cur] else []
    let cur' := if d ≠ cur then d else cur
    let bl := (branches.filter (fun b => b.parentSID == r.sessionID)).map DispLine.branchLine
    let rest := rootLoop branches rs cur'
    (hdr ++ .rootLine r :: bl ++ rest.1, rest.2)

/-- Model of `formatForDisplay`: roots (with attached branches and date
headers) followed by the final date header and the orphaned branches, i.e.
branches whose parent id is not among the root ids. -/
def formatForDisplayM (entries : List Entry) : List DispLine :=
  if entries.isEmpty then []
  else
    let roots := entries.filter isRootEntry
    let branches := entries.filter (fun e => !isRootEntry e)
    let rootIDs := roots.map (fun r => r.sessionID)
    let body := rootLoop branches roots []
    let finalHdr : List DispLine := if body.2 ≠ [] then [.header body.2] else []
    let orphans := (branches.filter (fun b => !(rootIDs.contains b.parentSID))).map
      DispLine.branchLine
    body.1 ++ finalHdr ++ orphans

/-- Right-associated form of one cache row without its terminating newline,
used to reason about the write-then-read round trip. -/
def entryBody (e : Entry) : GoStr :=
  e.sessionID ++ '\t' :: (formatHHMM e.date ++ '\t' :: (escapeTSV e.project
    ++ '\t' :: (escapeTSV e.summary ++ '\t' :: (intToStr e.date
    ++ '\t' :: ((if e.parentSID = [] then ['-'] else e.parentSID)
    ++ '\t' :: formatYMD e.date)))))

/-- True of bytes that may appear inside one scanned line (neither newline
nor carriage return). -/
def lineChar (c : Char) : Prop :=
  c ≠ '\n' ∧ c ≠ '\r'

instance : DecidablePred lineChar := fun c => by unfold lineChar; infer_instance

/-- A string that stays within one scanned line. -/
def lineStr (s : GoStr) : Prop :=
  ∀ c ∈ s, lineChar c

/-- True of bytes that survive `escapeTSV` unchanged (not tab, newline or
carriage return). -/
def cleanChar (c : Char) : Prop :=
  c ≠ '\t' ∧ c ≠ '\n' ∧ c ≠ '\r'

instance : DecidablePred cleanChar := fun c => by unfold cleanChar; infer_instance

/-- A string free of tabs, newlines and carriage returns: one that occupies
exactly one column of one cache row. -/
def cleanStr (s : GoStr) : Prop :=
  ∀ c ∈ s, cleanChar c

instance : DecidablePred cleanStr := fun s => by unfold cleanStr; infer_instance

/-- Fixture metadata for concrete witness runs. -/
def metaW : Meta :=
  { id := "a".toList, date := 5, project := "proj".toList
    summary := "sum".toList, parentSID := [] }

/-- Fixture adapter with a single session `a` backed by file `pa` with
mtime 5. -/
def adapterW : AdapterModel :=
  { sessions := ["a".toList]
    pathOf := fun s => if s = "a".toList then some ("pa".toList) else none
    mtimeOf := fun p => if p = "pa".toList then some 5 else none
    extractMeta := fun s => if s = "a".toList then .ok metaW else .error .notFound }

/-- Fixture adapter whose single session `s` (file `p`, mtime 5) is a warmup
session: `ExtractMeta` always reports the warmup sentinel. -/
def adapterWarm : AdapterModel :=
  { sessions := ["s".toList]
    pathOf := fun s => if s = "s".toList then some ("p".toList) else none
    mtimeOf := fun p => if p = "p".toList then some 5 else none
    extractMeta := fun _ => .error .warmup }

/-- Fixture cache entry carrying the warmup session's id. -/
def entryWarm : Entry :=
  { sessionID := "s".toList, date := 5, project := "proj".toList
    summary := "sum".toList, parentSID := [] }

/-- Fixture log record: a user message reading exactly `Warmup`. -/
def recWarm : Record :=
  { type := "user".toList, summary := []
    message := { role := "user".toList, content := .str ("Warmup".toList)
                 model := [], usage := none }
    isMeta := false, parentSession := [], sessionID := [], agentID := [] }

/-- Fixture agent session file under the wrong parent, met first in walk
order. -/
def fileAgentA : FileEnt :=
  { dirs := ["projects".toList, "proj".toList, "other".toList, "subagents".toList]
    base := "c.jsonl".toList, mtime := 7 }

/-- Fixture agent session file under parent `par`. -/
def fileAgentB : FileEnt :=
  { dirs := ["projects".toList, "proj".toList, "par".toList, "subagents".toList]
    base := "c.jsonl".toList, mtime := 9 }

/-- Fixture log record: an assistant message with token usage and a model
name. -/
def recStats : Record :=
  { type := "assistant".toList, summary := []
    message := { role := "assistant".toList, content := .nullv
                 model := "claude-opus".toList
                 usage := some { inputTokens := 1000000, outputTokens := 2000000
                                 cacheReadInputTokens := 0
                                 cacheCreationInputTokens := 0 } }
    isMeta := false, parentSession := [], sessionID := [], agentID := [] }

/-! Helper lemmas: digits, integer formatting and scanning. -/

theorem digitChar_isDigit (d : Nat) : (digitChar d).isDigit := by
  unfold digitChar; split <;> decide

theorem digitVal_digitChar {d : Nat} (h : d < 10) : digitVal (digitChar d) = d := by
  interval_cases d <;> decide

theorem natToRevDigits_digits (n : Nat) : ∀ c ∈ natToRevDigits n, c.isDigit := by
  induction n using Nat.strong_induction_on with
  | _ n ih =>
    match n with
    | 0 => intro c hc; simp [natToRevDigits] at hc
    | k + 1 =>
      rw [natToRevDigits]
      intro c hc
      rcases List.mem_cons.mp hc with rfl | hc
      · exact digitChar_isDigit _
      · exact ih ((k + 1) / 10) (Nat.div_lt_self (Nat.succ_pos k) (by omega)) c hc

theorem natToRevDigits_ne_nil {n : Nat} (h : n ≠ 0) : natToRevDigits n ≠ [] := by
  match n with
  | 0 => exact absurd rfl h
  | k + 1 => rw [natToRevDigits]; simp

theorem natToStr_digits (n : Nat) : ∀ c ∈ natToStr n, c.isDigit := by
  unfold natToStr; split
  · intro c hc; simp at hc; subst hc; decide
  · intro c hc; exact natToRevDigits_digits n c (List.mem_reverse.mp hc)

theorem natToStr_ne_nil (n : Nat) : natToStr n ≠ [] := by
  unfold natToStr; split
  · simp
  · simpa using natToRevDigits_ne_nil (by assumption)

theorem digitsToNat_append (xs : GoStr) (c : Char) :
    digitsToNat (xs ++ [c]) = digitsToNat xs * 10 + digitVal c := by
  simp [digitsToNat, List.foldl_append]

theorem digitsToNat_revDigits (n : Nat) : digitsToNat (natToRevDigits n).reverse = n := by
  induction n using Nat.strong_induction_on with
  | _ n ih =>
    match n with
    | 0 => simp [natToRevDigits, digitsToNat]
    | k + 1 =>
      rw [natToRevDigits, List.reverse_cons, digitsToNat_append]
      rw [ih ((k + 1) / 10) (Nat.div_lt_self (Nat.succ_pos k) (by omega))]
      rw [digitVal_digitChar (Nat.mod_lt _ (by omega))]
      omega

theorem digitsToNat_natToStr (n : Nat) : digitsToNat (natToStr n) = n := by
  unfold natToStr; split
  · subst (by assumption : n = 0); decide
  · exact digitsToNat_revDigits n

theorem takeWhile_eq_self_of_all {p : Char → Bool} {l : GoStr} (h : ∀ c ∈ l, p c) :
    l.takeWhile p = l := by
  induction l with
  | nil => rfl
  | cons c cs ih =>
    rw [List.takeWhile_cons, if_pos (h c (by simp))]
    rw [ih (fun x hx => h x (by simp [hx]))]

theorem leadingDigits_natToStr (n : Nat) : leadingDigits (natToStr n) = some n := by
  unfold leadingDigits
  rw [takeWhile_eq_self_of_all (natToStr_digits n)]
  rw [if_neg (by simpa using natToStr_ne_nil n)]
  rw [digitsToNat_natToStr]

theorem not_isSpaceB_of_isDigit {c : Char} (h : c.isDigit) : isSpaceB c = false := by
  cases hs : isSpaceB c with
  | false => rfl
  | true =>
    exfalso
    simp only [isSpaceB, Bool.or_eq_true, decide_eq_true_eq] at hs
    rcases hs with ((((rfl | rfl) | rfl) | rfl) | rfl) | rfl <;> simp [Char.isDigit] at h

theorem ne_dash_of_isDigit {c : Char} (h : c.isDigit) : c ≠ '-' := by
  rintro rfl; simp [Char.isDigit] at h

theorem ne_plus_of_isDigit {c : Char} (h : c.isDigit) : c ≠ '+' := by
  rintro rfl; simp [Char.isDigit] at h

theorem sscanfInt_intToStr (i : Int) : sscanfInt (intToStr i) = i := by
  unfold sscanfInt intToStr
  by_cases hi : i < 0
  · rw [if_pos hi]
    rw [List.dropWhile_cons, if_neg (by simp [isSpaceB])]
    simp only [sscanfCore]
    rw [if_pos trivial, leadingDigits_natToStr]
    show -((i.natAbs : Nat) : Int) = i
    omega
  · rw [if_neg hi]
    rcases hne : natToStr i.natAbs with _ | ⟨c, cs⟩
    · exact absurd hne (natToStr_ne_nil _)
    · have hc : c.isDigit := natToStr_digits i.natAbs c (by rw [hne]; simp)
      rw [List.dropWhile_cons, if_neg (by simp [not_isSpaceB_of_isDigit hc])]
      simp only [sscanfCore]
      rw [if_neg (ne_dash_of_isDigit hc), if_neg (ne_plus_of_isDigit hc), ← hne,
        leadingDigits_natToStr]
      show ((i.natAbs : Nat) : Int) = i
      omega

/-! Helper lemmas: strings free of tabs, newlines and carriage returns. -/

theorem cleanChar_of_isDigit {c : Char} (h : c.isDigit) : cleanChar c := by
  refine ⟨?_, ?_, ?_⟩ <;> rintro rfl <;> simp [Char.isDigit] at h

theorem cleanStr_nil : cleanStr [] := by intro c hc; simp at hc

theorem cleanStr_cons {c : Char} {s : GoStr} (hc : cleanChar c) (hs : cleanStr s) :
    cleanStr (c :: s) := by
  intro x hx
  rcases List.mem_cons.mp hx with rfl | hx
  · exact hc
  · exact hs x hx

theorem cleanStr_append {a b : GoStr} (ha : cleanStr a) (hb : cleanStr b) :
    cleanStr (a ++ b) := by
  intro x hx
  rcases List.mem_append.mp hx with hx | hx
  · exact ha x hx
  · exact hb x hx

theorem cleanStr_natToStr (n : Nat) : cleanStr (natToStr n) :=
  fun c hc => cleanChar_of_isDigit (natToStr_digits n c hc)

theorem cleanStr_intToStr (i : Int) : cleanStr (intToStr i) := by
  unfold intToStr; split
  · exact cleanStr_cons (by decide) (cleanStr_natToStr _)
  · exact cleanStr_natToStr _

theorem cleanStr_pad2 (n : Nat) : cleanStr (pad2 n) := by
  unfold pad2; split
  · exact cleanStr_cons (by decide) (cleanStr_natToStr _)
  · exact cleanStr_natToStr _

theorem cleanStr_pad4Nat (n : Nat) : cleanStr (pad4.pad4Nat n) := by
  unfold pad4.pad4Nat
  split
  · exact cleanStr_cons (by decide) (cleanStr_cons (by decide)
      (cleanStr_cons (by decide) (cleanStr_natToStr _)))
  · split
    · exact cleanStr_cons (by decide) (cleanStr_cons (by decide) (cleanStr_natToStr _))
    · split
      · exact cleanStr_cons (by decide) (cleanStr_natToStr _)
      · exact cleanStr_natToStr _

theorem cleanStr_pad4 (y : Int) : cleanStr (pad4 y) := by
  unfold pad4; split
  · exact cleanStr_cons (by decide) (cleanStr_pad4Nat _)
  · exact cleanStr_pad4Nat _

theorem cleanStr_formatHHMM (i : Int) : cleanStr (formatHHMM i) := by
  unfold formatHHMM
  exact cleanStr_append (cleanStr_pad2 _) (cleanStr_cons (by decide) (cleanStr_pad2 _))

theorem cleanStr_formatYMD (i : Int) : cleanStr (formatYMD i) := by
  unfold formatYMD
  rcases hc : civilOfUnix i with ⟨y, m, d⟩
  show cleanStr (pad4 y ++ '-' :: pad2 m ++ '-' :: pad2 d)
  exact cleanStr_append
    (cleanStr_append (cleanStr_pad4 _) (cleanStr_cons (by decide) (cleanStr_pad2 _)))
    (cleanStr_cons (by decide) (cleanStr_pad2 _))

theorem cleanStr_escapeTSV (s : GoStr) : cleanStr (escapeTSV s) := by
  intro c hc
  simp only [escapeTSV, List.mem_map] at hc
  obtain ⟨x, _, rfl⟩ := hc
  split_ifs with h1 h2 h3
  · decide
  · decide
  · decide
  · exact ⟨h1, h2, h3⟩

theorem escapeTSV_eq_self {s : GoStr} (h : cleanStr s) : escapeTSV s = s := by
  induction s with
  | nil => rfl
  | cons c cs ih =>
    have hc := h c (by simp)
    have hcs : cleanStr cs := fun x hx => h x (by simp [hx])
    simp only [escapeTSV, List.map_cons] at ih ⊢
    rw [if_neg hc.1, if_neg hc.2.1, if_neg hc.2.2, ih hcs]

theorem escapeTSV_idem (s : GoStr) : escapeTSV (escapeTSV s) = escapeTSV s :=
  escapeTSV_eq_self (cleanStr_escapeTSV s)

/-! Helper lemmas: splitting on a separator absent from the pieces. -/

theorem splitOn_sep_first {c : Char} {xs : GoStr} (h : c ∉ xs) (as : GoStr) :
    (xs ++ c :: as).splitOn c = xs :: as.splitOn c := by
  simp only [List.splitOn]
  apply List.splitOnP_first
  · intro x hx
    simp only [beq_iff_eq]
    rintro rfl; exact h hx
  · simp

theorem splitOn_single {c : Char} {xs : GoStr} (h : c ∉ xs) : xs.splitOn c = [xs] := by
  simp only [List.splitOn]
  apply List.splitOnP_eq_single
  intro x hx
  simp only [beq_iff_eq]
  rintro rfl; exact h hx

theorem notMem_of_cleanStr_tab {s : GoStr} (h : cleanStr s) : '\t' ∉ s := by
  intro hmem; exact (h _ hmem).1 rfl

theorem notMem_of_cleanStr_nl {s : GoStr} (h : cleanStr s) : '\n' ∉ s := by
  intro hmem; exact (h _ hmem).2.1 rfl

/-! Helper lemmas: the incremental build loop. -/

theorem lookupGo_sessionID {ex : List Entry} {j : GoStr} {e : Entry}
    (h : lookupGo ex j = some e) : e.sessionID = j := by
  unfold lookupGo at h
  have := List.find?_some h
  simpa using this

theorem freshEntry_sessionID {A : AdapterModel}
    (hID : ∀ j mt, A.extractMeta j = .ok mt → mt.id = j) {j : GoStr} {e : Entry}
    (h : freshEntry A j = some e) : e.sessionID = j := by
  unfold freshEntry at h
  rcases hx : A.extractMeta j with err | mt
  · rw [hx] at h; simp [Except.toOption] at h
  · rw [hx] at h
    simp [Except.toOption] at h
    rw [← h]
    exact hID j mt hx

theorem buildStep_sessionID {A : AdapterModel} {cm : Option Int} {ex : List Entry}
    (hID : ∀ j mt, A.extractMeta j = .ok mt → mt.id = j) :
    ∀ j e, buildStep A cm ex j = some e → e.sessionID = j := by
  intro j e h
  unfold buildStep at h
  split at h
  · exact Option.noConfusion h
  · split at h
    · exact Option.noConfusion h
    · split at h
      · split at h
        · split at h
          · rename_i hle
            cases h
            exact lookupGo_sessionID hle
          · exact freshEntry_sessionID hID h
        · exact freshEntry_sessionID hID h
      · exact freshEntry_sessionID hID h

theorem find?_filterMap_sessionID {f : GoStr → Option Entry}
    (hf : ∀ j e, f j = some e → e.sessionID = j) (l : List GoStr) (id : GoStr) :
    (l.filterMap f).find? (fun e => e.sessionID == id) = if id ∈ l then f id else none := by
  induction l with
  | nil => simp
  | cons a tl ih =>
    rcases ha : f a with _ | e
    · rw [List.filterMap_cons_none ha, ih]
      by_cases hid : a = id
      · subst hid
        by_cases h2 : a ∈ tl <;> simp [h2, ha]
      · have hid2 : ¬id = a := fun h => hid h.symm
        simp [List.mem_cons, hid2]
    · have hea : e.sessionID = a := hf a e ha
      rw [List.filterMap_cons_some ha]
      by_cases hid : a = id
      · subst hid
        rw [List.find?_cons_of_pos _ (by simp [hea])]
        simp [ha]
      · rw [List.find?_cons_of_neg _ (by simp [hea, hid]), ih]
        have hid2 : ¬id = a := fun h => hid h.symm
        simp [List.mem_cons, hid2]

theorem lookupGo_filterMap {f : GoStr → Option Entry}
    (hf : ∀ j e, f j = some e → e.sessionID = j) (ids : List GoStr) (id : GoStr) :
    lookupGo (ids.filterMap f) id = if id ∈ ids then f id else none := by
  unfold lookupGo
  rw [← List.filterMap_reverse, find?_filterMap_sessionID hf]
  by_cases hid : id ∈ ids <;> simp [hid]

theorem lookupGo_build {A : AdapterModel} (cm : Option Int) (ex : List Entry)
    (hID : ∀ j mt, A.extractMeta j = .ok mt → mt.id = j) (id : GoStr) :
    lookupGo (buildIncremental A cm ex) id =
      if id ∈ A.sessions then buildStep A cm ex id else none := by
  unfold buildIncremental
  exact lookupGo_filterMap (buildStep_sessionID hID) A.sessions id

/-- C1: during `BuildIncremental`, for a listed session whose path resolves
and whose stat succeeds, the previous cache entry is reused verbatim exactly
when the previous cache mtime is non-zero, the session file's mtime is
strictly before it, and a previous entry with that id exists; in every other
case the session's slot in the output is the result of a fresh `ExtractMeta`
call. (`hID` records that both adapters return metadata whose `ID` field is
the requested id.) -/
theorem buildIncremental_reuse_iff (A : AdapterModel) (cm : Option Int)
    (existing : List Entry) (id p : GoStr) (m : Int)
    (hID : ∀ j mt, A.extractMeta j = .ok mt → mt.id = j)
    (hmem : id ∈ A.sessions) (hp : A.pathOf id = some p) (hm : A.mtimeOf p = some m) :
    ((∃ c, cm = some c ∧ m < c) ∧ lookupGo existing id ≠ none →
        lookupGo (buildIncremental A cm existing) id = lookupGo existing id) ∧
    (¬((∃ c, cm = some c ∧ m < c) ∧ lookupGo existing id ≠ none) →
        lookupGo (buildIncremental A cm existing) id =
          (A.extractMeta id).toOption.map mkEntry) := by
  have hlk := lookupGo_build cm existing hID id
  rw [if_pos hmem] at hlk
  constructor
  · rintro ⟨⟨c, rfl, hmc⟩, hex⟩
    rw [hlk]
    simp only [buildStep, hp, hm]
    rw [if_pos hmc]
    rcases hle : lookupGo existing id with _ | e
    · exact absurd hle hex
    · rfl
  · intro hnot
    rw [hlk]
    rcases cm with _ | c
    · simp only [buildStep, hp, hm]
      rfl
    · simp only [buildStep, hp, hm]
      by_cases hmc : m < c
      · rw [if_pos hmc]
        rcases hle : lookupGo existing id with _ | e
        · rfl
        · exact absurd ⟨⟨c, rfl, hmc⟩, by simp [hle]⟩ hnot
      · rw [if_neg hmc]; rfl

/-- Witness for C1: on the fixture adapter, with a prior cache of mtime 10
and a previous entry for session `a` whose file has mtime 5, the built index
reuses the previous entry verbatim. -/
theorem buildIncremental_reuse_iff_witness :
    lookupGo (buildIncremental adapterW (some 10) [mkEntry metaW]) ("a".toList)
      = lookupGo [mkEntry metaW] ("a".toList) := by
  refine (buildIncremental_reuse_iff adapterW (some 10) [mkEntry metaW]
      ("a".toList) ("pa".toList) 5 ?_ (by decide) (by decide) (by decide)).1
    ⟨⟨10, rfl, by norm_num⟩, by decide⟩
  intro j mt h
  by_cases hj : j = "a".toList
  · subst hj
    simp only [adapterW, if_pos rfl] at h
    cases h
    decide
  · simp only [adapterW, if_neg hj] at h
    exact Except.noConfusion h

/-- C2: a second `BuildIncremental` run against the cache written from the
first run's entries, with no session file modified in between (so every
session file mtime is still below the new cache's mtime), returns the same
entry list, and `Write` therefore produces byte-identical cache content. -/
theorem buildIncremental_idempotent (A : AdapterModel) (cm0 : Option Int)
    (ex0 : List Entry) (Tw : Int)
    (hID : ∀ j mt, A.extractMeta j = .ok mt → mt.id = j)
    (hTw : ∀ id p m, id ∈ A.sessions → A.pathOf id = some p → A.mtimeOf p = some m → m < Tw) :
    buildIncremental A (some Tw) (buildIncremental A cm0 ex0) = buildIncremental A cm0 ex0 ∧
    writeContent (buildIncremental A (some Tw) (buildIncremental A cm0 ex0))
      = writeContent (buildIncremental A cm0 ex0) := by
  have key : ∀ id ∈ A.sessions,
      buildStep A (some Tw) (buildIncremental A cm0 ex0) id = buildStep A cm0 ex0 id := by
    intro id hmem
    rcases hp : A.pathOf id with _ | p
    · simp only [buildStep, hp]
    · rcases hm : A.mtimeOf p with _ | m
      · simp only [buildStep, hp, hm]
      · have hlt : m < Tw := hTw id p m hmem hp hm
        have hlk := lookupGo_build cm0 ex0 hID id
        rw [if_pos hmem] at hlk
        conv_lhs => simp only [buildStep, hp, hm]
        rw [if_pos hlt, hlk]
        rcases hs1 : buildStep A cm0 ex0 id with _ | e
        · show freshEntry A id = none
          rcases cm0 with _ | c
          · simpa only [buildStep, hp, hm] using hs1
          · simp only [buildStep, hp, hm] at hs1
            by_cases hmc : m < c
            · rw [if_pos hmc] at hs1
              rcases hle : lookupGo ex0 id with _ | e2
              · rw [hle] at hs1; exact hs1
              · rw [hle] at hs1; exact Option.noConfusion hs1
            · rw [if_neg hmc] at hs1; exact hs1
        · rfl
  constructor
  · unfold buildIncremental
    exact List.filterMap_congr key
  · exact congrArg writeContent (by unfold buildIncremental; exact List.filterMap_congr key)

/-- Witness for C2: a full build over the fixture adapter followed by an
incremental rebuild against the written cache (mtime 10) reproduces the same
entry list. -/
theorem buildIncremental_idempotent_witness :
    buildIncremental adapterW (some 10) (buildIncremental adapterW none []) =
      buildIncremental adapterW none [] := by
  refine (buildIncremental_idempotent adapterW none [] 10 ?_ ?_).1
  · intro j mt h
    by_cases hj : j = "a".toList
    · subst hj
      simp only [adapterW, if_pos rfl] at h
      cases h
      decide
    · simp only [adapterW, if_neg hj] at h
      exact Except.noConfusion h
  · intro id p m hmem hp hm
    simp [adapterW] at hm
    obtain ⟨-, hm5⟩ := hm
    omega

/-- C3 (amended): `ExtractMeta` returns the warmup sentinel when the
session's first user message is exactly the literal warmup marker, and the
no-messages sentinel when the session has no user/assistant records; a
session whose `ExtractMeta` yields either sentinel is omitted from the entry
list `BuildIncremental` returns whenever `ExtractMeta` is actually consulted
for it — that is, unless the session is reused verbatim from the previous
cache — and the build is a total function, so the sentinel never aborts
it. -/
theorem extractMeta_sentinels :
    (∀ (id : GoStr) (mtime : Int) (project : GoStr) (records : List Record) (r : Record),
        records.find? isUserUser = some r →
        extractTextContent r.message.content = warmupMarker →
        extractMetaCore id mtime project records = .error .warmup) ∧
    (∀ (id : GoStr) (mtime : Int) (project : GoStr) (records : List Record),
        (∀ r ∈ records, r.type ≠ "user".toList ∧ r.type ≠ "assistant".toList) →
        extractMetaCore id mtime project records = .error .noMessages) ∧
    (∀ (A : AdapterModel) (cm : Option Int) (ex : List Entry) (id : GoStr),
        (∀ j mt, A.extractMeta j = .ok mt → mt.id = j) →
        (A.extractMeta id = .error .warmup ∨ A.extractMeta id = .error .noMessages) →
        (∀ p m, A.pathOf id = some p → A.mtimeOf p = some m →
          ¬(∃ c, cm = some c ∧ m < c ∧ lookupGo ex id ≠ none)) →
        id ∉ (buildIncremental A cm ex).map (fun e => e.sessionID)) := by
  refine ⟨?_, ?_, ?_⟩
  · intro id mtime project records r hfind htext
    unfold extractMetaCore
    rw [hfind]
    show (if trimSpaceGo (extractTextContent r.message.content) = warmupMarker
        then Except.error MetaErr.warmup else _) = Except.error MetaErr.warmup
    rw [htext, if_pos (by decide)]
  · intro id mtime project records hnone
    have hfind : records.find? isUserUser = none := by
      rw [List.find?_eq_none]
      intro r hr
      simp only [isUserUser, Bool.and_eq_true, beq_iff_eq, not_and]
      intro ht _
      exact absurd ht (hnone r hr).1
    unfold extractMetaCore
    rw [hfind]
    simp only [extractMetaCore.extractMetaRest]
    have hmsg : (records.any fun r =>
        r.type == "user".toList || r.type == "assistant".toList) = false := by
      rw [List.any_eq_false]
      intro r hr
      simp only [Bool.or_eq_true, beq_iff_eq, not_or]
      exact ⟨(hnone r hr).1, (hnone r hr).2⟩
    rw [hmsg]
    rfl
  · intro A cm ex id hID hsent hnoreuse hmemmap
    obtain ⟨e, he, heid⟩ := List.mem_map.mp hmemmap
    obtain ⟨j, hj, hstep⟩ := List.mem_filterMap.mp he
    have hjid : e.sessionID = j := buildStep_sessionID hID j e hstep
    rw [hjid] at heid
    subst heid
    have hfe : freshEntry A j = none := by
      unfold freshEntry
      rcases hsent with h | h <;> rw [h] <;> rfl
    unfold buildStep at hstep
    rcases hp : A.pathOf j with _ | p
    · simp only [hp] at hstep
      exact Option.noConfusion hstep
    · simp only [hp] at hstep
      rcases hm : A.mtimeOf p with _ | m
      · simp only [hm] at hstep
        exact Option.noConfusion hstep
      · simp only [hm] at hstep
        rcases cm with _ | c
        · have h2 : freshEntry A j = some e := hstep
          rw [hfe] at h2
          exact Option.noConfusion h2
        · have h2 : (if m < c then
              match lookupGo ex j with
              | some e => some e
              | none => freshEntry A j
            else freshEntry A j) = some e := hstep
          by_cases hmc : m < c
          · have hle : lookupGo ex j = none := by
              by_contra hne
              exact hnoreuse p m hp hm ⟨c, rfl, hmc, hne⟩
            rw [if_pos hmc, hle] at h2
            have h3 : freshEntry A j = some e := h2
            rw [hfe] at h3
            exact Option.noConfusion h3
          · rw [if_neg hmc] at h2
            rw [hfe] at h2
            exact Option.noConfusion h2

/-- Counterexample for C3 as stated: `BuildIncremental` can keep a session
whose `ExtractMeta` yields the warmup sentinel, when the previous cache has a
later mtime than the session file and the previous entries still contain the
session — the reuse path copies the old entry without consulting
`ExtractMeta`. -/
theorem buildIncremental_keeps_cached_sentinel :
    adapterWarm.extractMeta ("s".toList) = .error .warmup ∧
    buildIncremental adapterWarm (some 10) [entryWarm] = [entryWarm] ∧
    "s".toList ∈ (buildIncremental adapterWarm (some 10) [entryWarm]).map
      (fun e => e.sessionID) := by
  refine ⟨rfl, by decide, by decide⟩

/-- Witness for C3 (amended): a concrete log whose only record is a user
message reading exactly `Warmup` makes `ExtractMeta` return the warmup
sentinel, and on the warmup fixture adapter with no reusable previous entry
the built index omits the session. -/
theorem extractMeta_sentinels_witness :
    extractMetaCore [] 0 [] [recWarm] = .error .warmup ∧
    "s".toList ∉ (buildIncremental adapterWarm (some 10) []).map (fun e => e.sessionID) := by
  constructor
  · exact extractMeta_sentinels.1 [] 0 [] [recWarm] recWarm (by decide) rfl
  · exact extractMeta_sentinels.2.2 adapterWarm (some 10) [] ("s".toList)
      (fun j mt h => Except.noConfusion h) (Or.inl rfl)
      (fun p m hp hm => by rintro ⟨c, -, -, hne⟩; exact hne rfl)

/-- C10: the truncation helper returns its input unchanged when it fits the
limit `n ≥ 3` and otherwise the first `n - 3` bytes followed by `...`, so its
result never exceeds `n` bytes; consequently every summary derived through
the first-user/first-assistant-message fallback is at most 100 bytes and
every `GetFirstMessage` result is at most 200 bytes. -/
theorem truncate_bounds :
    (∀ (s : GoStr) (n : Nat), 3 ≤ n →
      (s.length ≤ n → truncate s n = s) ∧
      (n < s.length → truncate s n = s.take (n - 3) ++ ['.', '.', '.']) ∧
      (truncate s n).length ≤ n) ∧
    (∀ records : List Record, (extractFirstUserMessage records).length ≤ 100) ∧
    (∀ records : List Record, (getFirstMessageCore records).length ≤ 200) := by
  have core : ∀ (s : GoStr) (n : Nat), 3 ≤ n →
      (s.length ≤ n → truncate s n = s) ∧
      (n < s.length → truncate s n = s.take (n - 3) ++ ['.', '.', '.']) ∧
      (truncate s n).length ≤ n := by
    intro s n h3
    refine ⟨?_, ?_, ?_⟩
    · intro hle; simp [truncate, hle]
    · intro hlt; simp [truncate, Nat.not_le.mpr hlt]
    · by_cases hle : s.length ≤ n
      · rw [truncate, if_pos hle]; exact hle
      · simp only [truncate, if_neg hle, List.length_append, List.length_take]
        simp only [List.length_cons, List.length_nil]
        omega
  refine ⟨core, ?_, ?_⟩
  · intro records
    unfold extractFirstUserMessage
    split
    · exact (core _ 100 (by norm_num)).2.2
    · split
      · exact (core _ 100 (by norm_num)).2.2
      · simp
  · intro records
    unfold getFirstMessageCore
    split
    · exact (core _ 200 (by norm_num)).2.2
    · simp

/-- Witness for C10: the truncation bound applied at a concrete 5-byte
string with limit 4. -/
theorem truncate_bounds_witness :
    truncate ("abcde".toList) 4 = "a...".toList ∧ (truncate ("abcde".toList) 4).length ≤ 4 := by
  refine ⟨?_, (truncate_bounds.1 ("abcde".toList) 4 (by norm_num)).2.2⟩
  rw [(truncate_bounds.1 ("abcde".toList) 4 (by norm_num)).2.1 (by decide)]
  decide

/-- C9: the estimated cost `GetStats` reports is the linear combination of
the session's four token totals with the per-million-token rates the code's
price table assigns to the session's model. The shipped table prices every
model at the Sonnet 3.5 row (3.0 input, 15.0 output, 0.30 cache-read, 3.75
cache-write per million tokens): `calculateCost` takes no model argument, so
the lookup at the session's model always yields those rates. -/
theorem getStats_cost_priceTable (records : List Record) (m : GoStr)
    (_hm : m ∈ modelsOf records) :
    (getStatsCore records).cost =
      ((getStatsCore records).inputTokens : ℚ) * (priceTable m).input / 1000000
        + ((getStatsCore records).outputTokens : ℚ) * (priceTable m).output / 1000000
        + ((getStatsCore records).cacheRead : ℚ) * (priceTable m).cacheRead / 1000000
        + ((getStatsCore records).cacheWrite : ℚ) * (priceTable m).cacheWrite / 1000000 := by
  simp only [getStatsCore, priceTable, calculateCost]

/-- Witness for C9: the cost formula evaluated on a one-record session (an
assistant message with usage and a model name). -/
theorem getStats_cost_priceTable_witness : (getStatsCore [recStats]).cost = 33 := by
  have h := getStats_cost_priceTable [recStats] ("claude-opus".toList) (by decide)
  have hs : getStatsCore [recStats] =
      { userMessages := 0, assistantMessages := 1, inputTokens := 1000000
        outputTokens := 2000000, cacheRead := 0, cacheWrite := 0
        cost := calculateCost 1000000 2000000 0 0, toolCalls := [] } := rfl
  rw [h]
  simp only [hs, priceTable]
  norm_num

/-- C4: `Read` yields exactly one entry per row with at least the four
required tab-separated columns, in original row order, decoding the session
id from column 1, project and summary from columns 3 and 4, the timestamp
from the unix-seconds column 5 and the parent session id from column 6 with
`-` decoding to empty; shorter rows are skipped without failing the read. In
particular the seven-column scenario row decodes to the expected entry. -/
theorem readEntries_spec :
    (∀ content : GoStr,
      readEntries content =
        ((scanLines content).filter (fun l => 4 ≤ (l.splitOn '\t').length)).map (fun l =>
          let parts := l.splitOn '\t'
          { sessionID := parts.getD 0 []
            date := if 5 ≤ parts.length then sscanfInt (parts.getD 4 [])
                    else clockFallback (parts.getD 1 [])
            project := unescapeTSV (parts.getD 2 [])
            summary := unescapeTSV (parts.getD 3 [])
            parentSID := if 6 ≤ parts.length && parts.getD 5 [] ≠ ['-'] then parts.getD 5 []
                         else [] })) ∧
    readEntries ("s1\t10:00\tproj\tsum one\t1700000000\t-\t2023-11-14\n".toList) =
      [{ sessionID := "s1".toList, date := 1700000000, project := "proj".toList
         summary := "sum one".toList, parentSID := [] }] := by
  constructor
  · intro content
    unfold readEntries
    generalize scanLines content = ls
    induction ls with
    | nil => rfl
    | cons l tl ih =>
      by_cases hl : 4 ≤ (l.splitOn '\t').length
      · have hp : parseRow l = some
            (let parts := l.splitOn '\t'
             { sessionID := parts.getD 0 []
               date := if 5 ≤ parts.length then sscanfInt (parts.getD 4 [])
                       else clockFallback (parts.getD 1 [])
               project := unescapeTSV (parts.getD 2 [])
               summary := unescapeTSV (parts.getD 3 [])
               parentSID := if 6 ≤ parts.length && parts.getD 5 [] ≠ ['-'] then parts.getD 5 []
                            else [] }) := by
          unfold parseRow
          rw [if_neg (by omega)]
        simp [List.filterMap_cons, List.filter_cons, hp, hl, ih]
      · have hp : parseRow l = none := by
          unfold parseRow
          rw [if_pos (by omega)]
        simp [List.filterMap_cons, List.filter_cons, hp, hl, ih]
  · decide

/-! Helper lemmas: the write-then-read round trip. -/

theorem lineChar_of_cleanChar {c : Char} (h : cleanChar c) : lineChar c :=
  ⟨h.2.1, h.2.2⟩

theorem lineStr_of_cleanStr {s : GoStr} (h : cleanStr s) : lineStr s :=
  fun c hc => lineChar_of_cleanChar (h c hc)

theorem lineStr_cons {c : Char} {s : GoStr} (hc : lineChar c) (hs : lineStr s) :
    lineStr (c :: s) := by
  intro x hx
  rcases List.mem_cons.mp hx with rfl | hx
  · exact hc
  · exact hs x hx

theorem lineStr_append {a b : GoStr} (ha : lineStr a) (hb : lineStr b) :
    lineStr (a ++ b) := by
  intro x hx
  rcases List.mem_append.mp hx with hx | hx
  · exact ha x hx
  · exact hb x hx

theorem lineStr_entryBody {e : Entry} (hsid : cleanStr e.sessionID)
    (hpar : cleanStr e.parentSID) : lineStr (entryBody e) := by
  have htab : lineChar '\t' := by decide
  have hp5 : lineStr (if e.parentSID = [] then ['-'] else e.parentSID) := by
    split
    · intro c hc; simp at hc; subst hc; decide
    · exact lineStr_of_cleanStr hpar
  unfold entryBody
  exact lineStr_append (lineStr_of_cleanStr hsid) (lineStr_cons htab
    (lineStr_append (lineStr_of_cleanStr (cleanStr_formatHHMM _)) (lineStr_cons htab
      (lineStr_append (lineStr_of_cleanStr (cleanStr_escapeTSV _)) (lineStr_cons htab
        (lineStr_append (lineStr_of_cleanStr (cleanStr_escapeTSV _)) (lineStr_cons htab
          (lineStr_append (lineStr_of_cleanStr (cleanStr_intToStr _)) (lineStr_cons htab
            (lineStr_append hp5 (lineStr_cons htab
              (lineStr_of_cleanStr (cleanStr_formatYMD _)))))))))))))

theorem mem_of_getLast?_eq {α : Type} {l : List α} {a : α} (h : l.getLast? = some a) :
    a ∈ l := by
  induction l with
  | nil => simp at h
  | cons x xs ih =>
    rcases xs with _ | ⟨y, ys⟩
    · simp at h; simp [h]
    · rw [List.getLast?_cons_cons] at h
      exact List.mem_cons.mpr (Or.inr (ih h))

theorem splitOn_tabs7 {p0 p1 p2 p3 p4 p5 p6 : GoStr}
    (h0 : '\t' ∉ p0) (h1 : '\t' ∉ p1) (h2 : '\t' ∉ p2) (h3 : '\t' ∉ p3)
    (h4 : '\t' ∉ p4) (h5 : '\t' ∉ p5) (h6 : '\t' ∉ p6) :
    (p0 ++ '\t' :: (p1 ++ '\t' :: (p2 ++ '\t' :: (p3 ++ '\t' :: (p4
        ++ '\t' :: (p5 ++ '\t' :: p6)))))).splitOn '\t'
      = [p0, p1, p2, p3, p4, p5, p6] := by
  rw [splitOn_sep_first h0, splitOn_sep_first h1, splitOn_sep_first h2, splitOn_sep_first h3,
    splitOn_sep_first h4, splitOn_sep_first h5, splitOn_single h6]

theorem entryLine_eq_body (e : Entry) : entryLine e = entryBody e ++ ['\n'] := by
  simp [entryLine, entryBody]

theorem parseRow_entryBody (e : Entry) (hsid : cleanStr e.sessionID)
    (hpar : cleanStr e.parentSID) (hdash : e.parentSID ≠ ['-']) :
    parseRow (entryBody e) =
      some { e with project := escapeTSV e.project, summary := escapeTSV e.summary } := by
  have h0 : '\t' ∉ e.sessionID := notMem_of_cleanStr_tab hsid
  have h1 : '\t' ∉ formatHHMM e.date := notMem_of_cleanStr_tab (cleanStr_formatHHMM _)
  have h2 : '\t' ∉ escapeTSV e.project := notMem_of_cleanStr_tab (cleanStr_escapeTSV _)
  have h3 : '\t' ∉ escapeTSV e.summary := notMem_of_cleanStr_tab (cleanStr_escapeTSV _)
  have h4 : '\t' ∉ intToStr e.date := notMem_of_cleanStr_tab (cleanStr_intToStr _)
  have h5 : '\t' ∉ (if e.parentSID = [] then ['-'] else e.parentSID) := by
    split
    · decide
    · exact notMem_of_cleanStr_tab hpar
  have h6 : '\t' ∉ formatYMD e.date := notMem_of_cleanStr_tab (cleanStr_formatYMD _)
  have hsplit : (entryBody e).splitOn '\t' =
      [e.sessionID, formatHHMM e.date, escapeTSV e.project, escapeTSV e.summary,
        intToStr e.date, (if e.parentSID = [] then ['-'] else e.parentSID),
        formatYMD e.date] := by
    unfold entryBody
    exact splitOn_tabs7 h0 h1 h2 h3 h4 h5 h6
  unfold parseRow
  rw [hsplit]
  rw [if_neg (by simp)]
  by_cases hpe : e.parentSID = []
  · simp [hpe, sscanfInt_intToStr, unescapeTSV]
  · simp [hpe, hdash, sscanfInt_intToStr, unescapeTSV]

theorem scanLines_flatten {bodies : List GoStr}
    (hline : ∀ b ∈ bodies, lineStr b) :
    scanLines ((bodies.map (fun b => b ++ ['\n'])).flatten) = bodies := by
  have hsplit : ((bodies.map (fun b => b ++ ['\n'])).flatten).splitOn '\n'
      = bodies ++ [[]] := by
    induction bodies with
    | nil => simp [List.splitOn_nil]
    | cons b tl ih =>
      have hnl : '\n' ∉ b := fun hm => ((hline b (by simp)) _ hm).1 rfl
      have ihs := ih (fun x hx => hline x (by simp [hx]))
      simp only [List.map_cons, List.flatten_cons, List.append_assoc, List.singleton_append]
      rw [splitOn_sep_first hnl, ihs]
      simp
  unfold scanLines
  simp only [hsplit]
  rw [if_pos (by rw [List.getLast?_concat]), List.dropLast_concat]
  have : ∀ b ∈ bodies, stripCR b = b := by
    intro b hb
    unfold stripCR
    split
    · rename_i hcr
      exact absurd rfl ((hline b hb) _ (mem_of_getLast?_eq hcr)).2
    · rfl
  calc bodies.map stripCR = bodies.map id := List.map_congr_left this
    _ = bodies := List.map_id bodies

/-- C5: for every entry whose free-text fields may contain tabs, newlines or
carriage returns, `Write` followed by `Read` returns the same project and
summary strings with each such character replaced by a single space (all
other fields round-tripping unchanged, dash-encoding of the empty parent id
included), and the escaping is idempotent: escaping an already-escaped
string is a no-op. -/
theorem escapeTSV_roundtrip :
    (∀ s : GoStr, escapeTSV (escapeTSV s) = escapeTSV s) ∧
    (∀ es : List Entry,
      (∀ e ∈ es, cleanStr e.sessionID ∧ cleanStr e.parentSID ∧ e.parentSID ≠ ['-']) →
      readEntries (writeContent es) =
        es.map (fun e => { e with project := escapeTSV e.project
                                  summary := escapeTSV e.summary })) := by
  refine ⟨escapeTSV_idem, ?_⟩
  intro es hes
  unfold readEntries writeContent
  have hmap : es.map entryLine = (es.map entryBody).map (fun b => b ++ ['\n']) := by
    rw [List.map_map]
    exact List.map_congr_left (fun e _ => entryLine_eq_body e)
  rw [hmap, scanLines_flatten (by
    intro b hb
    obtain ⟨e, he, rfl⟩ := List.mem_map.mp hb
    exact lineStr_entryBody (hes e he).1 (hes e he).2.1)]
  rw [List.filterMap_map]
  clear hmap
  induction es with
  | nil => rfl
  | cons e tl ih =>
    rw [List.filterMap_cons, List.map_cons]
    have hr := parseRow_entryBody e (hes e (by simp)).1 (hes e (by simp)).2.1
      (hes e (by simp)).2.2
    simp only [Function.comp_apply, hr]
    rw [ih (fun x hx => hes x (by simp [hx]))]

/-- Witness for C5: a concrete entry whose summary contains a tab and a
newline and whose project contains a carriage return survives the write/read
round trip with those bytes replaced by spaces. -/
theorem escapeTSV_roundtrip_witness :
    readEntries (writeContent [{ sessionID := "s1".toList, date := 1700000000
                                 project := "pr\roj".toList, summary := "a\tb\nc".toList
                                 parentSID := [] }]) =
      [{ sessionID := "s1".toList, date := 1700000000
         project := "pr oj".toList, summary := "a b c".toList, parentSID := [] }] := by
  have h := escapeTSV_roundtrip.2
    [{ sessionID := "s1".toList, date := 1700000000
       project := "pr\roj".toList, summary := "a\tb\nc".toList, parentSID := [] }]
    (by decide)
  rw [h]
  decide

/-- C6: `ListSessions` returns ids ordered newest-first by the backing
file's mtime — the returned list is the projection of an mtime-descending
permutation of the walked (id, mtime) pairs — and when the data directory
does not exist (the walk callback swallows the walk error) the call returns
an empty list rather than an error. -/
theorem listSessions_spec :
    (∀ fs : Option (List FileEnt), fs = none → listSessionsM fs = []) ∧
    (∀ fs : Option (List FileEnt), ∃ ps : List (GoStr × Int),
      listSessionsM fs = ps.map Prod.fst ∧
      List.Pairwise (fun a b => b.2 ≤ a.2) ps ∧
      ps.Perm (match fs with
        | none => []
        | some files =>
          files.filterMap (fun f => (sessionIdOf f).map (fun id => (id, f.mtime))))) := by
  constructor
  · rintro fs rfl; rfl
  · intro fs
    refine ⟨listPairs fs, rfl, ?_, ?_⟩
    · unfold listPairs
      rcases fs with _ | files
      · simp
      · refine List.Pairwise.imp (fun hab => by simpa using hab)
          (List.sorted_mergeSort
            (fun a b c hab hbc => by
              simp only [decide_eq_true_eq] at hab hbc ⊢
              exact le_trans hbc hab)
            (fun a b => by
              simp only [Bool.or_eq_true, decide_eq_true_eq]
              exact le_total b.2 a.2)
            (files.filterMap (fun f => (sessionIdOf f).map (fun id => (id, f.mtime)))))
    · unfold listPairs
      rcases fs with _ | files
      · exact List.Perm.refl _
      · exact List.mergeSort_perm _ _

/-- Witness for C6: a missing data directory yields the empty session
list. -/
theorem listSessions_spec_witness : listSessionsM none = [] :=
  listSessions_spec.1 none rfl

/-! Helper lemmas: composite-id resolution. -/

theorem splitN2_eq {pid cid : GoStr} (h : '/' ∉ pid) :
    splitN2 (pid ++ '/' :: cid) = (pid, cid) := by
  induction pid with
  | nil => simp [splitN2]
  | cons c cs ih =>
    have hc : c ≠ '/' := fun heq => h (heq ▸ List.mem_cons_self c cs)
    have hcs : '/' ∉ cs := fun hm => h (List.mem_cons.mpr (Or.inr hm))
    simp [splitN2, hc, ih hcs]

theorem slash_mem_composite {pid cid : GoStr} : '/' ∈ (pid ++ '/' :: cid) :=
  List.mem_append.mpr (Or.inr (List.mem_cons_self _ _))

theorem acceptFile_composite {pid cid : GoStr} (hns : '/' ∉ pid) (f : FileEnt) :
    acceptFile (pid ++ '/' :: cid) f =
      ((f.base == cid ++ jsonlSuffix) &&
        !((dirLast f == "subagents".toList) && (dirPenult f != pid))) := by
  unfold acceptFile searchPatternOf
  rw [splitN2_eq hns]
  simp [slash_mem_composite]

/-- C7: for a composite id `parentId/childId` (the parent id contains no
slash), `GetSessionFile` never returns a file lying in a `subagents`
directory of a different parent; when every file named `childId.jsonl` is an
agent file and exactly one of them lies under `parentId`, the search returns
that unique file even though another file with the same base name exists
elsewhere; and for any id, composite or plain, with no file matching the
search pattern the result is the empty string (modelled as `none`), which
callers treat as not-found. -/
theorem getSessionFile_spec :
    (∀ (files : List FileEnt) (pid cid : GoStr) (f : FileEnt), '/' ∉ pid →
      getSessionFileM files (pid ++ '/' :: cid) = some f →
      dirLast f = "subagents".toList → dirPenult f = pid) ∧
    (∀ (files : List FileEnt) (pid cid : GoStr) (f0 : FileEnt), '/' ∉ pid →
      (∀ f ∈ files, f.base = cid ++ jsonlSuffix → dirLast f = "subagents".toList) →
      f0 ∈ files → f0.base = cid ++ jsonlSuffix → dirPenult f0 = pid →
      (∀ f ∈ files, f.base = cid ++ jsonlSuffix → dirPenult f = pid → f = f0) →
      getSessionFileM files (pid ++ '/' :: cid) = some f0) ∧
    (∀ (files : List FileEnt) (id : GoStr),
      (∀ f ∈ files, f.base ≠ searchPatternOf id) → getSessionFileM files id = none) := by
  refine ⟨?_, ?_, ?_⟩
  · intro files pid cid f hns hfind hsub
    unfold getSessionFileM at hfind
    have hacc := List.find?_some hfind
    rw [acceptFile_composite hns] at hacc
    simp only [Bool.and_eq_true, beq_iff_eq, Bool.not_eq_true', Bool.and_eq_false_iff,
      beq_eq_false_iff_ne, bne_eq_false_iff_eq] at hacc
    rcases hacc.2 with h | h
    · exact absurd hsub h
    · exact h
  · intro files pid cid f0 hns hall hmem hbase hpen huniq
    induction files with
    | nil => simp at hmem
    | cons f tl ih =>
      unfold getSessionFileM
      by_cases hacc : acceptFile (pid ++ '/' :: cid) f = true
      · rw [List.find?_cons_of_pos _ hacc]
        rw [acceptFile_composite hns] at hacc
        simp only [Bool.and_eq_true, beq_iff_eq, Bool.not_eq_true', Bool.and_eq_false_iff,
          beq_eq_false_iff_ne, bne_eq_false_iff_eq] at hacc
        have hfsub := hall f (by simp) hacc.1
        have hfpen : dirPenult f = pid := by
          rcases hacc.2 with h | h
          · exact absurd hfsub h
          · exact h
        rw [huniq f (by simp) hacc.1 hfpen]
      · rw [List.find?_cons_of_neg _ hacc]
        have hf0 : f ≠ f0 := by
          rintro rfl
          apply hacc
          rw [acceptFile_composite hns]
          simp [hbase, hpen]
        have hmem' : f0 ∈ tl := by
          rcases List.mem_cons.mp hmem with h | h
          · exact absurd h.symm hf0
          · exact h
        exact ih (fun x hx hb => hall x (by simp [hx]) hb) hmem'
          (fun x hx hb hp => huniq x (by simp [hx]) hb hp)
  · intro files id hnone
    unfold getSessionFileM
    rw [List.find?_eq_none]
    intro f hf
    unfold acceptFile
    simp [hnone f hf]

/-- Witness for C7: with two same-named agent files under different parents,
the composite id resolves to the file under the requested parent even though
the wrong-parent file comes first in walk order. -/
theorem getSessionFile_spec_witness :
    getSessionFileM [fileAgentA, fileAgentB] ("par".toList ++ '/' :: "c".toList)
      = some fileAgentB := by
  exact getSessionFile_spec.2.1 [fileAgentA, fileAgentB] ("par".toList) ("c".toList)
    fileAgentB (by decide) (by decide) (by decide) (by decide) (by decide) (by decide)

/-! Helper lemmas: the grouped display view. -/

theorem count_map_branchLine (b : Entry) (l : List Entry) :
    List.count (DispLine.branchLine b) (l.map DispLine.branchLine) = List.count b l := by
  induction l with
  | nil => rfl
  | cons x xs ih =>
    simp only [List.map_cons, List.count_cons, ih]
    congr 1
    simp [beq_iff_eq]

theorem rootLoop_count_zero (branches : List Entry) (b : Entry) :
    ∀ (roots : List Entry) (cur : GoStr),
    (∀ r ∈ roots, r.sessionID ≠ b.parentSID) →
    List.count (DispLine.branchLine b) (rootLoop branches roots cur).1 = 0 := by
  intro roots
  induction roots with
  | nil => intro cur _; rfl
  | cons r rs ih =>
    intro cur h
    unfold rootLoop
    simp only [List.count_append, List.count_cons]
    have hhdr : List.count (DispLine.branchLine b)
        (if formatYMD r.date ≠ cur ∧ cur ≠ [] then [DispLine.header cur] else []) = 0 := by
      split <;> simp
    have hroot : (DispLine.rootLine r == DispLine.branchLine b) = false := by
      simp
    have hbl : List.count (DispLine.branchLine b)
        ((branches.filter (fun x => x.parentSID == r.sessionID)).map DispLine.branchLine)
        = 0 := by
      rw [count_map_branchLine, List.count_eq_zero]
      intro hmem
      have := List.of_mem_filter hmem
      simp only [beq_iff_eq] at this
      exact h r (by simp) this.symm
    rw [hhdr, hroot, hbl, ih (if formatYMD r.date ≠ cur then formatYMD r.date else cur)
      (fun x hx => h x (by simp [hx]))]
    simp

/-- C8: an entry present exactly once in the list, whose non-empty parent id
matches no session id in the list, is rendered exactly once by the grouped
display — as an orphaned root-level branch line — never dropped; the view
builder is a total function, so dangling parent references cannot make it
crash or loop. -/
theorem formatForDisplay_orphan_once (entries : List Entry) (b : Entry)
    (hcount : List.count b entries = 1)
    (hroot : isRootEntry b = false)
    (hne : ∀ e ∈ entries, e.sessionID ≠ b.parentSID) :
    List.count (DispLine.branchLine b) (formatForDisplayM entries) = 1 := by
  have hbmem : b ∈ entries := List.count_pos_iff.mp (by omega)
  have hemp : ¬(entries.isEmpty = true) := by
    rw [Bool.not_eq_true, List.isEmpty_eq_false]
    exact List.ne_nil_of_mem hbmem
  unfold formatForDisplayM
  rw [if_neg hemp]
  simp only [List.count_append]
  have h1 : List.count (DispLine.branchLine b)
      (rootLoop (entries.filter (fun e => !isRootEntry e)) (entries.filter isRootEntry)
        []).1 = 0 := by
    apply rootLoop_count_zero
    intro r hr
    exact hne r (List.mem_of_mem_filter hr)
  have h2 : List.count (DispLine.branchLine b)
      (if (rootLoop (entries.filter (fun e => !isRootEntry e)) (entries.filter isRootEntry)
          []).2 ≠ [] then
        [DispLine.header (rootLoop (entries.filter (fun e => !isRootEntry e))
          (entries.filter isRootEntry) []).2]
      else []) = 0 := by
    split <;> simp
  have h3 : List.count (DispLine.branchLine b)
      (((entries.filter (fun e => !isRootEntry e)).filter (fun x =>
          !((entries.filter isRootEntry).map (fun r => r.sessionID)).contains x.parentSID)).map
        DispLine.branchLine) = 1 := by
    rw [count_map_branchLine]
    have hnc : b.parentSID ∉
        (entries.filter isRootEntry).map (fun r => r.sessionID) := by
      intro hmem
      obtain ⟨r, hr, hrid⟩ := List.mem_map.mp hmem
      exact hne r (List.mem_of_mem_filter hr) hrid
    rw [List.count_filter (by simp [hnc])]
    rw [List.count_filter (by simp [hroot])]
    exact hcount
  rw [h1, h2, h3]

/-- Witness for C8: a two-entry list with one root and one branch whose
parent was deleted renders the dangling branch exactly once. -/
theorem formatForDisplay_orphan_once_witness :
    List.count
      (DispLine.branchLine { sessionID := "b1".toList, date := 0, project := "p".toList
                             summary := "s".toList, parentSID := "gone".toList })
      (formatForDisplayM
        [{ sessionID := "r1".toList, date := 0, project := "p".toList
           summary := "root".toList, parentSID := [] },
         { sessionID := "b1".toList, date := 0, project := "p".toList
           summary := "s".toList, parentSID := "gone".toList }]) = 1 := by
  exact formatForDisplay_orphan_once _ _ (by decide) (by decide) (by decide)
